import Mathlib

/-!
# Verification of the cogate runtime core

A shallow embedding, in Lean 4, of the parts of the `gliderlab/cogate`
repository that the specification's testable properties talk about:

* the event queue of the pulse (heartbeat) scheduler
  (`storage` package: `AddEvent`, `UpdateEventStatus`, `ClearOldEvents`;
  `agent` package: `PulseHandler.shouldProcessEvent`, `processEvent`,
  `PulseHandler.AddEvent`),
* session compaction (`agent`: `maybeCompact`, `buildSummary`,
  `estimateTokensFromStore`; `storage`: `GetMessages`),
* the tool-call chain (`agent`: `handleToolCalls`, `callAPIWithDepth`,
  `executeToolCalls`),
* the vector memory store (`memory` package: `hybridSearch`,
  `getEmbedding`, `normalizeVector`, the placeholder embedding) and the
  `memory_store` tool (`tools` package),
* the cron job store (`cron` package: `CreateJobFromMap`,
  `JobStore.Update`).

Go machine integers only occur here as counts and timestamps far from any
overflow boundary, so they are modelled as `Nat`/`Int`; Go `float32`/
`float64` arithmetic on scores and vector components is modelled over `ℚ`
(exact arithmetic), and the square root used by vector normalization is
passed in as a function together with its defining equation on the one
value where it is used.  Go string slicing is by bytes; `String.take`
is by characters, which agrees on the ASCII strings manipulated here.
-/

/-! ## Events (storage package) -/

/-- A row of the `events` table.  `priority` is the Go `EventPriority`
(an `int`); `processedAt` is the nullable `processed_at` column, a
timestamp when set. -/
structure Event where
  id : Int
  title : String
  content : String
  priority : Int
  status : String
  channel : String
  createdAt : Int
  processedAt : Option Int
deriving Repr, DecidableEq

/-- `Storage.AddEvent`: the freshly inserted row.  The SQL is
`INSERT INTO events (title, content, priority, status, channel)
VALUES (?, ?, ?, 'pending', ?)`; `processed_at` is left NULL and
`created_at` defaults to the current time. -/
def Storage.addEvent (id : Int) (title content : String) (priority : Int)
    (channel : String) (now : Int) : Event :=
  { id := id, title := title, content := content, priority := priority,
    status := "pending", channel := channel, createdAt := now,
    processedAt := none }

/-- `Storage.UpdateEventStatus`: the SQL is
`UPDATE events SET status = ?, processed_at = CURRENT_TIMESTAMP WHERE id = ?`,
so every status update also stamps `processed_at`, whatever the new
status is. -/
def Storage.updateEventStatus (e : Event) (status : String) (now : Int) : Event :=
  { e with status := status, processedAt := some now }

/-- The statuses the spec calls terminal. -/
def isTerminalStatus (s : String) : Bool :=
  s = "completed" || s = "completed_with_errors" || s = "dismissed"

/-- Event rows reachable through the storage interface as the pulse
scheduler drives it: a row is inserted by `Storage.AddEvent` and is then
only touched by `Storage.UpdateEventStatus`, which `processEvent` calls
with `"processing"` first and `"completed"` / `"completed_with_errors"`
afterwards (no caller ever writes `"dismissed"`). -/
inductive ReachableEvent : Event → Prop
  | added (id : Int) (title content : String) (priority : Int)
      (channel : String) (now : Int) :
      ReachableEvent (Storage.addEvent id title content priority channel now)
  | updated (e : Event) (status : String) (now : Int) :
      ReachableEvent e →
      (status = "processing" ∨ status = "completed" ∨
        status = "completed_with_errors") →
      ReachableEvent (Storage.updateEventStatus e status now)

/-! ## Pulse scheduler admission (agent package) -/

/-- The processing state of `PulseHandler`: the `isProcessing` flag and
the `currentEvent` pointer (nil ↦ `none`). -/
structure PulseState where
  isProcessing : Bool
  currentEvent : Option Event
deriving Repr

/-- `PulseHandler.shouldProcessEvent`.  The Go code first rejects any
event of priority above critical while something is processing, then
switches on the priority (`PriorityCritical`=0, `PriorityHigh`=1,
`PriorityNormal`=2, `PriorityLow`=3; any other value falls through to
`false`). -/
def shouldProcessEvent (p : PulseState) (e : Event) : Bool :=
  if p.isProcessing && decide (e.priority > 0) then false
  else if e.priority = 0 then true
  else if e.priority = 1 then !p.isProcessing || decide (p.currentEvent = none)
  else if e.priority = 2 then !p.isProcessing
  else if e.priority = 3 then !p.isProcessing
  else false

/-- `PulseHandler.AddEvent` clamps the priority: out-of-range values
become 2 (normal); `Storage.AddEvent` then stores the clamped value
verbatim.  `Agent.AddPulseEvent` delegates to this unchanged. -/
def pulseAddEvent (id : Int) (title content : String) (priority : Int)
    (channel : String) (now : Int) : Event :=
  let priority := if priority < 0 || priority > 3 then 2 else priority
  Storage.addEvent id title content priority channel now

/-! ## ClearOldEvents (storage package) -/

/-- Decimal digit string to number (for the datetime modifier). -/
def digitsToNat (ds : List Char) : Nat :=
  ds.foldl (fun n c => 10 * n + (c.toNat - Char.toNat (Char.ofNat 48))) 0

/-- SQLite `datetime` modifier parsing, restricted to the shape
`ClearOldEvents` tries to use: `-N hours` with `N` a digit string yields
the offset in hours; anything else is an invalid modifier, which makes
`datetime(...)` return NULL. -/
def sqlHoursModifier (s : String) : Option Nat :=
  let cs := s.data
  if cs.head? = some (Char.ofNat 45) && (" hours".data).isSuffixOf cs then
    let digits := (cs.drop 1).take (cs.length - 7)
    if digits ≠ [] && digits.all Char.isDigit then some (digitsToNat digits)
    else none
  else none

/-- One row's fate under
`DELETE FROM events WHERE status IN ('completed','dismissed')
AND processed_at < datetime('now', '-? hours')`: with a valid modifier
the row is deleted when terminal-ish and old enough; with a NULL
datetime the comparison is NULL and the row survives. -/
def clearOldEventsKeeps (modifier : Option Nat) (now : Int) (e : Event) : Bool :=
  match modifier with
  | none => true
  | some h =>
      !((e.status = "completed" || e.status = "dismissed") &&
        (match e.processedAt with
         | some t => decide (t < now - (h : Int) * 3600)
         | none => false))

/-- `Storage.ClearOldEvents`.  The Go code interpolates nothing: the SQL
text contains `'-? hours'`, a quoted string literal, so the statement has
zero parameter placeholders and the `olderThanHours` argument is never
substituted.  The modifier string handed to `datetime` is literally
`-? hours`, which is invalid (`Char.isDigit '?' = false`), so the
comparison never holds and no row is deleted.  (In Go's `database/sql`
the extra bound argument additionally makes `Exec` fail with an
argument-count error, with the same net effect: nothing is deleted.) -/
def clearOldEvents (events : List Event) (olderThanHours : Nat) (now : Int) :
    List Event :=
  let _ := olderThanHours
  events.filter (clearOldEventsKeeps (sqlHoursModifier "-? hours") now)

/-- Modelled from the spec: the cleanup semantics the spec prescribes for
`ClearOldEvents` ("delete where status ∈ terminal and
processed_at < now − hours"). -/
def clearOldEventsSpec (events : List Event) (olderThanHours : Nat) (now : Int) :
    List Event :=
  events.filter
    (clearOldEventsKeeps (some olderThanHours) now)

/-! ## Session compaction (agent + storage packages) -/

/-- A row of the `messages` table, as far as compaction observes it
(role and content; ids are regenerated on re-insert and the claim
compares roles and contents). -/
structure StoredMessage where
  role : String
  content : String
deriving Repr, DecidableEq

/-- `Storage.GetMessages(sessionKey, limit)`: `ORDER BY created_at DESC
LIMIT ?`, then reversed in Go, i.e. the newest `limit` rows in
chronological order. -/
def getMessages (msgs : List StoredMessage) (limit : Nat) : List StoredMessage :=
  (msgs.reverse.take limit).reverse

/-- `estimateTokensFromStore`: `total += len(m.Content)/4 + 4` over the
fetched rows. -/
def estimateTokensFromStore (msgs : List StoredMessage) : Nat :=
  (msgs.map (fun m => m.content.length / 4 + 4)).sum

/-- `strings.Join(lines, sep)`. -/
def joinStrings (sep : String) : List String → String
  | [] => ""
  | [x] => x
  | x :: xs => x ++ sep ++ joinStrings sep xs

/-- `buildSummary`: one `role: content` line per message, content cut at
200 characters, whole summary cut at 2000. -/
def buildSummary (msgs : List StoredMessage) : String :=
  if msgs = [] then ""
  else
    let lines := msgs.map (fun m =>
      let content := if m.content.length > 200 then m.content.take 200 ++ "..."
        else m.content
      m.role ++ ": " ++ content)
    let summary := joinStrings "\n" lines
    if summary.length > 2000 then summary.take 2000 ++ "..." else summary

/-- Compaction trigger constants: `DEFAULT_CONTEXT_TOKENS -
DEFAULT_RESERVE_TOKENS - DEFAULT_SOFT_TOKENS = 8192 - 1024 - 800`. -/
def compactionThreshold : Nat := 8192 - 1024 - 800

/-- `DEFAULT_KEEP_MESSAGES`. -/
def keepMessages : Nat := 30

/-- `Agent.maybeCompact`, restricted to its effect on the session's
`messages` rows.  It fetches the newest 500 rows, estimates tokens over
those, and below the threshold (or at ≤ 30 fetched rows) leaves the
table alone.  Otherwise it archives the fetched rows before the keep
window, deletes every row of the session, re-inserts the 30 survivors
and appends the `system` summary message (the summary of a non-empty
prefix is non-empty, but the embedding keeps the Go guard). -/
def maybeCompact (msgs : List StoredMessage) : List StoredMessage :=
  let stored := getMessages msgs 500
  let tokens := estimateTokensFromStore stored
  if tokens < compactionThreshold ∨ stored.length ≤ keepMessages then msgs
  else
    let cut := stored.length - keepMessages
    let old := stored.take cut
    let keep := stored.drop cut
    let summary := buildSummary old
    keep ++ (if summary ≠ "" then [⟨"system", "[summary]\n" ++ summary⟩] else [])

/-! ## Cron jobs (cron package) -/

/-- `cron.Schedule`. -/
structure CronSchedule where
  kind : String
  at_ : String
  everyMs : Int
  expr : String
  tz : String
deriving Repr, DecidableEq

/-- `cron.Payload`. -/
structure CronPayload where
  kind : String
  text : String
  message : String
  model : String
  thinking : String
  timeoutSeconds : Int
deriving Repr, DecidableEq

/-- `cron.Delivery`. -/
structure CronDelivery where
  mode : String
  channel : String
  to_ : String
  bestEffort : Bool
deriving Repr, DecidableEq

/-- `cron.Job`, without the timestamps and run-state that the payload
invariant does not mention. -/
structure CronJob where
  name : String
  description : String
  agentId : String
  enabled : Bool
  schedule : CronSchedule
  sessionTarget : String
  wakeMode : String
  payload : CronPayload
  delivery : Option CronDelivery
  deleteAfterRun : Bool
deriving Repr, DecidableEq

/-- The `map[string]interface{}` argument of `CreateJobFromMap`: each Go
`data[k].(T)` type assertion either hits (`some v`) or misses
(`none`: key absent or of another type). -/
structure JobMapInput where
  name : Option String := none
  description : Option String := none
  agentId : Option String := none
  scheduleKind : Option String := none
  scheduleAt : Option String := none
  scheduleEveryMs : Option Int := none
  scheduleExpr : Option String := none
  scheduleTz : Option String := none
  sessionTarget : Option String := none
  wakeMode : Option String := none
  payloadKind : Option String := none
  payloadText : Option String := none
  payloadMessage : Option String := none
  payloadModel : Option String := none
  payloadThinking : Option String := none
  payloadTimeoutSeconds : Option Int := none
  delivery : Option (Option String × Option String × Option String × Option Bool) := none
  deleteAfterRun : Option Bool := none
deriving Repr

/-- `cron.CreateJobFromMap`: builds the job from the map (absent fields
keep the zero value, `sessionTarget` defaults to `main`, `wakeMode` to
`now`), validates `name` and `schedule.kind`, and then forces the
payload kind to agree with the session target. -/
def CreateJobFromMap (d : JobMapInput) : Except String CronJob :=
  let job : CronJob :=
    { name := d.name.getD ""
      description := d.description.getD ""
      agentId := d.agentId.getD ""
      enabled := true
      schedule :=
        { kind := d.scheduleKind.getD ""
          at_ := d.scheduleAt.getD ""
          everyMs := d.scheduleEveryMs.getD 0
          expr := d.scheduleExpr.getD ""
          tz := d.scheduleTz.getD "" }
      sessionTarget := d.sessionTarget.getD "main"
      wakeMode := d.wakeMode.getD "now"
      payload :=
        { kind := d.payloadKind.getD ""
          text := d.payloadText.getD ""
          message := d.payloadMessage.getD ""
          model := d.payloadModel.getD ""
          thinking := d.payloadThinking.getD ""
          timeoutSeconds := d.payloadTimeoutSeconds.getD 0 }
      delivery := d.delivery.map (fun (m, c, t, b) =>
        { mode := m.getD "", channel := c.getD "", to_ := t.getD "",
          bestEffort := b.getD false })
      deleteAfterRun := d.deleteAfterRun.getD (d.scheduleKind.getD "" = "at") }
  if job.name = "" then Except.error "name is required"
  else if job.schedule.kind = "" then Except.error "schedule.kind is required"
  else
    let job := if job.sessionTarget = "main" ∧ job.payload.kind ≠ "systemEvent"
      then { job with payload := { job.payload with kind := "systemEvent" } }
      else job
    let job := if job.sessionTarget = "isolated" ∧ job.payload.kind ≠ "agentTurn"
      then { job with payload := { job.payload with kind := "agentTurn" } }
      else job
    Except.ok job

/-- The partial-patch argument of `JobStore.Update`, with the same
present/absent convention as `JobMapInput`. -/
structure JobUpdateInput where
  name : Option String := none
  description : Option String := none
  enabled : Option Bool := none
  scheduleKind : Option String := none
  scheduleAt : Option String := none
  scheduleEveryMs : Option Int := none
  scheduleExpr : Option String := none
  scheduleTz : Option String := none
  payloadKind : Option String := none
  payloadText : Option String := none
  payloadMessage : Option String := none
  payloadModel : Option String := none
  payloadThinking : Option String := none
deriving Repr

/-- `JobStore.Update`: each present patch field overwrites the job field
verbatim; nothing re-validates the payload kind against the session
target (which `Update` cannot even change). -/
def JobStore.update (job : CronJob) (u : JobUpdateInput) : CronJob :=
  { job with
    name := u.name.getD job.name
    description := u.description.getD job.description
    enabled := u.enabled.getD job.enabled
    schedule :=
      { kind := u.scheduleKind.getD job.schedule.kind
        at_ := u.scheduleAt.getD job.schedule.at_
        everyMs := u.scheduleEveryMs.getD job.schedule.everyMs
        expr := u.scheduleExpr.getD job.schedule.expr
        tz := u.scheduleTz.getD job.schedule.tz }
    payload :=
      { kind := u.payloadKind.getD job.payload.kind
        text := u.payloadText.getD job.payload.text
        message := u.payloadMessage.getD job.payload.message
        model := u.payloadModel.getD job.payload.model
        thinking := u.payloadThinking.getD job.payload.thinking
        timeoutSeconds := job.payload.timeoutSeconds } }

/-- The payload-kind invariant of the spec's data model. -/
def PayloadKindInvariant (job : CronJob) : Prop :=
  (job.sessionTarget = "main" → job.payload.kind = "systemEvent") ∧
  (job.sessionTarget = "isolated" → job.payload.kind = "agentTurn")

instance (job : CronJob) : Decidable (PayloadKindInvariant job) := by
  unfold PayloadKindInvariant; infer_instance

/-! ## Vector memory store (memory package): embeddings and normalization -/

/-- Squared L2 norm of a vector (sum of squared components). -/
def normSq {F : Type} [Field F] (v : List F) : F :=
  (v.map (fun x => x * x)).sum

/-- Dot product, `cosineSimilarity`'s numerator: the Go loop indexes both
slices up to `len(a)`; the callers pass equal-length slices, which
`zipWith` matches. -/
def dotList {F : Type} [Field F] (a b : List F) : F :=
  (List.zipWith (fun x y => x * y) a b).sum

/-- The placeholder embedding used when no provider is configured:
`vector[i] = float32(i%256) / 256.0`. -/
def placeholderVector (dim : Nat) : List ℚ :=
  (List.range dim).map (fun i => ((i % 256 : Nat) : ℚ) / 256)

/-- `normalizeVector`: no-op on the zero vector, otherwise divides every
component by the norm.  The square root is supplied as a function `sqrt`
(instantiated with the real square root, or with any function agreeing
with it on the one value it is applied to). -/
def normalizeVector {F : Type} [Field F] [DecidableEq F] (sqrt : F → F)
    (v : List F) : List F :=
  if normSq v = 0 then v else v.map (fun x => x / sqrt (normSq v))

/-- The part of `VectorMemoryStore` state that `getEmbedding` consults:
whether an embedding provider was found, whether the HNSW index is live,
and the index's metric (`NewVectorMemoryStore` hardcodes `"cosine"`).
`NewVectorMemoryStore` only creates the index when a provider exists, so
`hnswPresent → hasProvider` in every store the constructor returns. -/
structure MemStoreState where
  hasProvider : Bool
  hnswPresent : Bool
  metric : String
  embeddingDim : Nat
deriving Repr

/-- The `vector` local of `getEmbedding` before normalization: the
provider's reply, or the placeholder when no provider is configured
(`raw` is ignored on the placeholder path, exactly as the provider is
not called there). -/
def embeddingInput (st : MemStoreState) (raw : List ℚ) : List ℚ :=
  if st.hasProvider then raw else placeholderVector st.embeddingDim

/-- `getEmbedding`: provider embedding or placeholder, then
normalization **only when the HNSW index is non-nil** and its metric is
cosine or ip. -/
def getEmbedding (sqrt : ℚ → ℚ) (st : MemStoreState) (raw : List ℚ) : List ℚ :=
  let vector := embeddingInput st raw
  if st.hnswPresent ∧ (st.metric = "cosine" ∨ st.metric = "ip") then
    normalizeVector sqrt vector
  else vector

/-! ## memory_store tool (tools package) -/

/-- What the `memory_store` tool observes of one `Search` hit: the
entry's id and text. -/
structure MemHit where
  id : String
  text : String
deriving Repr, DecidableEq

/-- The tool's observable outcome. -/
inductive MemStoreAction where
  | duplicate (id : String)
  | created (id : String)
deriving Repr, DecidableEq

/-- `strings.TrimSpace`: strip leading and trailing whitespace. -/
def trimSpace (s : String) : String :=
  String.mk
    (((s.data.dropWhile Char.isWhitespace).reverse.dropWhile
        Char.isWhitespace).reverse)

/-- `MemoryStoreTool.Execute`, after the argument defaulting: it runs
`Store.Search(text, 3, 0.95)` (whose hits, all at similarity ≥ 0.95, are
the `hits` argument), walks the hits in order and returns `duplicate`
for the first one whose trimmed text equals the trimmed input; otherwise
it inserts one row (`Store.Store`, fresh id `newId`) and returns
`created`.  `rows` is the `vector_memories` id column. -/
def memoryStoreExecute (hits : List MemHit) (rows : List String)
    (text : String) (newId : String) : MemStoreAction × List String :=
  match hits.find? (fun r => trimSpace r.text = trimSpace text) with
  | some r => (MemStoreAction.duplicate r.id, rows)
  | none => (MemStoreAction.created newId, rows ++ [newId])

/-! ## Hybrid search (memory package) -/

/-- `maxf`. -/
def maxf (a b : ℚ) : ℚ := if a > b then a else b

/-- The keyword component of the hybrid score:
`1.0 / (1.0 + maxf(0, bm25))`. -/
def textScoreOf (bm25 : ℚ) : ℚ := 1 / (1 + maxf 0 bm25)

/-- The candidate pools of `hybridSearch`, keyed by entry id: the vector
pool (`vectorSearch` scores) and the keyword pool (bm25 values from FTS,
or the LIKE fallback's constant 1).  Go maps have unique keys; the
vector pool's ids are distinct because memory ids are primary keys. -/
abbrev ScoreList := List (String × ℚ)

/-- Building the `merged` map, first phase: every vector candidate
enters with `VectorWeight * r.Score`. -/
def mergeVecCandidates (vw : ℚ) (vecResults : ScoreList) : ScoreList :=
  vecResults.map (fun p => (p.1, vw * p.2))

/-- Building the `merged` map, second phase: each keyword candidate adds
`TextWeight * textScore` to its entry, or enters alone with that
score. -/
def mergeTextCandidates (tw : ℚ) (acc : ScoreList) : ScoreList → ScoreList
  | [] => acc
  | (id, bm25) :: rest =>
      let ts := textScoreOf bm25
      if acc.any (fun q => q.1 = id) then
        mergeTextCandidates tw
          (acc.map (fun q => if q.1 = id then (q.1, q.2 + tw * ts) else q)) rest
      else
        mergeTextCandidates tw (acc ++ [(id, tw * ts)]) rest

/-- Descending sort by score, as the exchange-sort loop in `hybridSearch`
produces: a permutation of the input ordered by score, highest first
(the loop fixes no tie order, and nothing downstream observes it). -/
def insertScoreDesc (x : String × ℚ) : ScoreList → ScoreList
  | [] => [x]
  | y :: ys => if y.2 ≤ x.2 then x :: y :: ys else y :: insertScoreDesc x ys

/-- See `insertScoreDesc`. -/
def sortScoresDesc : ScoreList → ScoreList
  | [] => []
  | x :: xs => insertScoreDesc x (sortScoresDesc xs)

/-- The final loop of `hybridSearch`: walk the sorted list, skip entries
below `minScore`, append the rest, and stop once `limit` entries are
collected (`lim` is the remaining capacity). -/
def collectTopScores (minScore : ℚ) : Nat → ScoreList → ScoreList
  | _, [] => []
  | lim, x :: xs =>
      if x.2 < minScore then collectTopScores minScore lim xs
      else if lim ≤ 1 then [x]
      else x :: collectTopScores minScore (lim - 1) xs

/-- `VectorMemoryStore.hybridSearch`, abstracted over the two candidate
pools (which the store fills from HNSW/linear scan and FTS/LIKE with
pool size `limit * CandidateMult`). -/
def hybridSearch (vw tw : ℚ) (limit : Nat) (minScore : ℚ)
    (vecResults textScores : ScoreList) : ScoreList :=
  collectTopScores minScore limit
    (sortScoresDesc
      (mergeTextCandidates tw (mergeVecCandidates vw vecResults) textScores))

/-- Score lookup in a pool (Go map read; `none` when absent). -/
def poolScore (pool : ScoreList) (id : String) : Option ℚ :=
  (pool.find? (fun p => p.1 = id)).map (fun p => p.2)

/-- The spec's score formula for an id, given the two pools: a missing
component contributes 0. -/
def hybridScoreFormula (vw tw : ℚ) (vecResults textScores : ScoreList)
    (id : String) : ℚ :=
  vw * (poolScore vecResults id).getD 0 +
    tw * (match poolScore textScores id with
          | some bm25 => textScoreOf bm25
          | none => 0)

/-! ## Tool-call chain (agent package) -/

/-- JSON values, as produced by `encoding/json` on the structures the
chain marshals. -/
inductive Json where
  | null
  | bool (b : Bool)
  | num (n : Int)
  | str (s : String)
  | arr (elems : List Json)
  | obj (fields : List (String × Json))
deriving Repr

mutual

/-- `json.Marshal` on a `Json` value (string escaping elided: the chain's
claims never inspect escaped text). -/
def jsonRender : Json → String
  | .null => "null"
  | .bool b => if b then "true" else "false"
  | .num n => toString n
  | .str s => "\"" ++ s ++ "\""
  | .arr xs => "[" ++ jsonRenderList xs ++ "]"
  | .obj fs => "\x7b" ++ jsonRenderFields fs ++ "\x7d"

/-- Comma-joined array elements. -/
def jsonRenderList : List Json → String
  | [] => ""
  | [x] => jsonRender x
  | x :: y :: xs => jsonRender x ++ "," ++ jsonRenderList (y :: xs)

/-- Comma-joined object fields. -/
def jsonRenderFields : List (String × Json) → String
  | [] => ""
  | [(k, v)] => "\"" ++ k ++ "\":" ++ jsonRender v
  | (k, v) :: f :: fs =>
      "\"" ++ k ++ "\":" ++ jsonRender v ++ "," ++ jsonRenderFields (f :: fs)

end

/-- `agent.ToolCall` (flattening the nested `Function` struct). -/
structure ToolCall where
  id : String
  name : String
  arguments : String
deriving Repr, DecidableEq

/-- `agent.Message`. -/
structure AgentMessage where
  role : String
  content : String
  toolCalls : List ToolCall
  toolCallID : String
deriving Repr, DecidableEq

/-- `agent.ToolResult` (`Type` is always `"function"`). -/
structure ToolResult where
  id : String
  type_ : String
  result : Json
deriving Repr

/-- The tool registry as the chain sees it: `CallTool` composed with
`parseArgs`, i.e. a function from tool name and raw argument string to a
result or an error. -/
def ToolRegistry : Type := String → String → Except String Json

/-- `executeToolCalls`: invoke each call and wrap the outcome as the
`{success, result|error, tool}` map (Go's `json.Marshal` emits map keys
alphabetically; the field list here is in that order). -/
def executeToolCalls (reg : ToolRegistry) (calls : List ToolCall) :
    List ToolResult :=
  calls.map (fun call =>
    let wrapped := match reg call.name call.arguments with
      | .error e => Json.obj
          [("error", .str e), ("success", .bool false), ("tool", .str call.name)]
      | .ok v => Json.obj
          [("result", v), ("success", .bool true), ("tool", .str call.name)]
    { id := call.id, type_ := "function", result := wrapped })

/-- `json.Marshal` of one `ToolResult` (fields tagged `id`, `type`,
`result`). -/
def encodeToolResult (r : ToolResult) : Json :=
  .obj [("id", .str r.id), ("type", .str r.type_), ("result", r.result)]

/-- `json.Marshal` of `ToolResponse`: the `{"tool_results": [...]}`
blob. -/
def encodeToolResponse (results : List ToolResult) : Json :=
  .obj [("tool_results", .arr (results.map encodeToolResult))]

/-- What one LLM round trip yields once parsed: the assistant content
and its `tool_calls` array. -/
structure LLMReply where
  content : String
  toolCalls : List ToolCall
deriving Repr

/-- The model as a function of the conversation (the POST to
`/chat/completions` plus response parsing). -/
def ModelFun : Type := List AgentMessage → LLMReply

/-- The filter of `callAPIWithDepth`: tool calls with empty name or
arguments are dropped. -/
def validToolCalls (r : LLMReply) : List ToolCall :=
  r.toolCalls.filter (fun c => c.name != "" && c.arguments != "")

mutual

/-- `Agent.callAPIWithDepth` (API reachable, response parsed): call the
model; when the reply carries valid tool calls, hand them with the
assistant message to `handleToolCalls` at the same depth; otherwise
return the content.  (The fallback scan for the custom XML tool-call
format is elided: the claims quantify over models whose replies carry
standard tool calls.) -/
def callAPIWithDepth (model : ModelFun) (reg : ToolRegistry)
    (hasApiKey : Bool) (msgs : List AgentMessage) (depth : Nat) : String :=
  let reply := model msgs
  let valid := validToolCalls reply
  if valid.isEmpty then reply.content
  else
    handleToolCalls model reg hasApiKey msgs valid
      (some { role := "assistant", content := reply.content,
              toolCalls := reply.toolCalls, toolCallID := "" }) depth
termination_by 2 * (2 - depth) + 1
decreasing_by simp_wf

/-- `Agent.handleToolCalls`: execute the calls, and at the depth bound
(or with no API key) return the marshalled results blob; otherwise
extend the conversation with the assistant turn and one OpenAI-style
`tool` message per result and recurse one level deeper.
(`executeToolCalls` yields one result per call, so the index-matched
`tool_call_id` assignment is the `zipWith`.) -/
def handleToolCalls (model : ModelFun) (reg : ToolRegistry)
    (hasApiKey : Bool) (msgs : List AgentMessage) (calls : List ToolCall)
    (assistantMsg : Option AgentMessage) (depth : Nat) : String :=
  let results := executeToolCalls reg calls
  let resp := jsonRender (encodeToolResponse results)
  if _h : hasApiKey = false ∨ 2 ≤ depth then resp
  else
    let withAssistant :=
      match assistantMsg with
      | some m => msgs ++ [m]
      | none =>
          match msgs.getLast? with
          | none =>
              msgs ++ [{ role := "assistant", content := "",
                         toolCalls := calls, toolCallID := "" }]
          | some last =>
              if last.toolCalls.isEmpty then
                msgs ++ [{ role := "assistant", content := "",
                           toolCalls := calls, toolCallID := "" }]
              else msgs
    let toolMsgs := List.zipWith
      (fun (tr : ToolResult) (c : ToolCall) =>
        { role := "tool", content := jsonRender tr.result,
          toolCalls := [], toolCallID := c.id : AgentMessage })
      results calls
    callAPIWithDepth model reg hasApiKey (withAssistant ++ toolMsgs) (depth + 1)
termination_by 2 * (2 - depth)
decreasing_by
  simp_wf
  have _hd : depth < 2 := by
    by_contra hc
    exact _h (Or.inr (by omega))
  omega

end

/-! ## Theorems: pulse event priority clamping (C10) -/

/-- C10: `PulseHandler.AddEvent` (and `Agent.AddPulseEvent`, which
delegates to it) stores priority 2 for any argument outside `{0,1,2,3}`
and stores in-range arguments unchanged; `Storage.AddEvent` inserts the
clamped value verbatim. -/
theorem pulseAddEvent_priority_clamped (id : Int) (title content channel : String)
    (now : Int) (p : Int) :
    (pulseAddEvent id title content p channel now).priority =
      if p < 0 ∨ 3 < p then 2 else p := by
  simp only [pulseAddEvent, Storage.addEvent]
  split_ifs with h1 h2 <;> simp_all

/-! ## Theorems: pulse admission for high priority (C3) -/

/-- A pulse state in the middle of processing a normal (priority 2)
event, as `processEvent` sets it up. -/
def pulseStateBusyNormal : PulseState :=
  { isProcessing := true,
    currentEvent := some (Storage.updateEventStatus
      (Storage.addEvent 7 "routine" "tidy up" 2 "" 0) "processing" 1) }

/-- A pending high-priority event. -/
def highEvent : Event := Storage.addEvent 8 "alert" "disk warning" 1 "" 2

/-- C3 counterexample: with a priority-2 event in flight, the claim
admits a pending priority-1 event ("or the event currently being
processed has priority ≥ 2"), but `shouldProcessEvent`'s first guard
(`isProcessing && priority > PriorityCritical`) rejects every
non-critical event while anything at all is processing. -/
theorem shouldProcessEvent_high_claim_cex :
    ¬ (shouldProcessEvent pulseStateBusyNormal highEvent = true ↔
        (pulseStateBusyNormal.isProcessing = false ∨
          ∃ c, pulseStateBusyNormal.currentEvent = some c ∧ 2 ≤ c.priority)) := by
  intro h
  have hadmit : shouldProcessEvent pulseStateBusyNormal highEvent = true :=
    h.mpr (Or.inr ⟨_, rfl, by norm_num [Storage.updateEventStatus, Storage.addEvent]⟩)
  simp [shouldProcessEvent, pulseStateBusyNormal, highEvent,
    Storage.addEvent, Storage.updateEventStatus] at hadmit

/-- C3 amended: a pending priority-1 event is admitted iff the scheduler
is not currently processing any event at all (the in-flight event's own
priority never matters). -/
theorem shouldProcessEvent_high_iff_idle (st : PulseState) (e : Event)
    (hp : e.priority = 1) :
    (shouldProcessEvent st e = true ↔ st.isProcessing = false) := by
  unfold shouldProcessEvent
  rw [hp]
  cases st.isProcessing <;> simp

/-- Witness for the amended C3 theorem at a concrete idle state. -/
theorem shouldProcessEvent_high_iff_idle_witness :
    highEvent.priority = 1 ∧
      (shouldProcessEvent { isProcessing := false, currentEvent := none }
        highEvent = true ↔
        ({ isProcessing := false, currentEvent := none } :
          PulseState).isProcessing = false) :=
  ⟨rfl, shouldProcessEvent_high_iff_idle _ highEvent rfl⟩

/-! ## Theorems: processed_at invariant (C4) -/

/-- An event the pulse scheduler has just marked `processing`. -/
def processingEvent : Event :=
  Storage.updateEventStatus (Storage.addEvent 3 "disk" "disk is full" 2 "" 100)
    "processing" 101

/-- C4 counterexample: `UpdateEventStatus` stamps `processed_at` on
*every* status write, so right after the scheduler marks an event
`processing` — a reachable state — `processed_at` is already set while
the status is not terminal; the claimed "set iff terminal" equivalence
fails there. -/
theorem eventProcessedAt_claim_cex :
    ReachableEvent processingEvent ∧
      processingEvent.processedAt ≠ none ∧
      isTerminalStatus processingEvent.status = false :=
  ⟨ReachableEvent.updated _ _ _ (ReachableEvent.added 3 "disk" "disk is full" 2 "" 100)
      (Or.inl rfl),
    by simp [processingEvent, Storage.updateEventStatus],
    by simp [processingEvent, Storage.updateEventStatus, Storage.addEvent,
      isTerminalStatus]⟩

/-- C4 amended: in every reachable event state, `processed_at` is set
iff the event has left `pending` (i.e. its status was updated at least
once: `processing` or terminal), not iff the status is terminal. -/
theorem eventProcessedAt_iff_left_pending (e : Event)
    (h : ReachableEvent e) : e.processedAt ≠ none ↔ e.status ≠ "pending" := by
  induction h with
  | added id title content priority channel now =>
      simp [Storage.addEvent]
  | updated e status now _hr hs _ih =>
      rcases hs with h1 | h1 | h1 <;> subst h1 <;>
        simp [Storage.updateEventStatus]

/-- Witness for the amended C4 theorem: the invariant instantiated at the
concrete `processing` event. -/
theorem eventProcessedAt_iff_left_pending_witness :
    processingEvent.processedAt ≠ none ↔ processingEvent.status ≠ "pending" :=
  eventProcessedAt_iff_left_pending processingEvent
    (ReachableEvent.updated _ _ _
      (ReachableEvent.added 3 "disk" "disk is full" 2 "" 100) (Or.inl rfl))

/-! ## Theorems: event cleanup (C5) -/

/-- A `completed` event whose `processed_at` lies 48 hours before the
cleanup instant (timestamps in seconds). -/
def staleCompletedEvent : Event :=
  Storage.updateEventStatus (Storage.addEvent 4 "done" "finished" 2 "" 0)
    "completed" 1000

/-- C5, code bug: at `cleanupHours = 24`, the spec's cleanup semantics
delete `staleCompletedEvent` (48 h old), but the shipped
`ClearOldEvents` deletes nothing — its SQL embeds the `?` inside the
string literal `'-? hours'`, so the hours argument is never bound and
the `datetime` modifier is invalid.  The spec itself flags this
(`§9`: "formats the hour parameter into the SQL literal oddly"). -/
theorem clearOldEvents_keeps_stale_completed :
    clearOldEvents [staleCompletedEvent] 24 173800 = [staleCompletedEvent] ∧
      clearOldEventsSpec [staleCompletedEvent] 24 173800 = [] := by
  constructor
  · rfl
  · rfl

/-! ## Theorems: cron payload-kind invariant (C9) -/

/-- An API request for a main-session job whose payload kind wrongly
says `agentTurn`. -/
def mainJobRequest : JobMapInput :=
  { name := some "daily", scheduleKind := some "every",
    scheduleEveryMs := some 60000, sessionTarget := some "main",
    payloadKind := some "agentTurn", payloadText := some "tick" }

/-- The job `CreateJobFromMap` builds from `mainJobRequest` (payload
kind corrected to `systemEvent`). -/
def mainJobCreated : CronJob :=
  { name := "daily", description := "", agentId := "", enabled := true,
    schedule := { kind := "every", at_ := "", everyMs := 60000, expr := "",
                  tz := "" },
    sessionTarget := "main", wakeMode := "now",
    payload := { kind := "systemEvent", text := "tick", message := "",
                 model := "", thinking := "", timeoutSeconds := 0 },
    delivery := none, deleteAfterRun := false }

/-- The partial patch `{"payload": {"kind": "agentTurn"}}`. -/
def agentTurnKindPatch : JobUpdateInput := { payloadKind := some "agentTurn" }

/-- C9 counterexample: creation does correct the payload kind, but
`JobStore.Update` applies a `payload.kind` patch verbatim, so one
partial update drives a main-session job out of the invariant — the
invariant is not preserved by every job-store operation. -/
theorem cronPayloadInvariant_claim_cex :
    CreateJobFromMap mainJobRequest = Except.ok mainJobCreated ∧
      PayloadKindInvariant mainJobCreated ∧
      ¬ PayloadKindInvariant (JobStore.update mainJobCreated agentTurnKindPatch) := by
  refine ⟨rfl, by decide, ?_⟩
  intro h
  have := h.1 rfl
  simp [JobStore.update, mainJobCreated, agentTurnKindPatch] at this

/-- C9 amended: `CreateJobFromMap` establishes the payload-kind
invariant on every job it returns, and `JobStore.Update` preserves it
whenever the patch does not touch `payload.kind` (the session target is
not patchable at all); a patch that does set `payload.kind` is copied
verbatim and can break the invariant. -/
theorem cronPayloadInvariant_amended :
    (∀ (d : JobMapInput) (job : CronJob),
        CreateJobFromMap d = Except.ok job → PayloadKindInvariant job) ∧
    (∀ (job : CronJob) (u : JobUpdateInput), u.payloadKind = none →
        PayloadKindInvariant job → PayloadKindInvariant (JobStore.update job u)) := by
  constructor
  · intro d job h
    unfold CreateJobFromMap at h
    dsimp only at h
    split_ifs at h with h1 h2 h3 h4 h5 <;>
      simp only [Except.ok.injEq] at h <;> subst h <;>
      constructor <;> intro hst <;> simp_all [PayloadKindInvariant]
  · intro job u hu hinv
    constructor <;> intro hst <;>
      simp_all [JobStore.update, PayloadKindInvariant, hu]

/-- Witness for the amended C9 theorem: applied to the concrete creation
request, and to a patch that leaves the payload kind alone. -/
theorem cronPayloadInvariant_amended_witness :
    PayloadKindInvariant mainJobCreated ∧
      PayloadKindInvariant (JobStore.update mainJobCreated
        { name := some "renamed" }) :=
  ⟨cronPayloadInvariant_amended.1 mainJobRequest mainJobCreated rfl,
    cronPayloadInvariant_amended.2 mainJobCreated { name := some "renamed" } rfl
      (cronPayloadInvariant_amended.1 mainJobRequest mainJobCreated rfl)⟩

/-! ## Theorems: memory_store duplicate detection (C8) -/

/-- An existing memory entry very similar — but not textually equal — to
the new input (similar enough that `Search(text, 3, 0.95)` returns
it). -/
def nearDuplicateHit : MemHit :=
  { id := "m1", text := "user prefers dark mode" }

/-- C8 counterexample: the store already holds an entry matched at
similarity ≥ 0.95 (the hit list is non-empty), yet the tool still
inserts a new row and answers `created`: the code additionally demands
exact trimmed-text equality before reporting a duplicate. -/
theorem memoryStore_duplicate_claim_cex :
    ([nearDuplicateHit] : List MemHit) ≠ [] ∧
      memoryStoreExecute [nearDuplicateHit] [] "user prefers dark modes" "m2" =
        (MemStoreAction.created "m2", ["m2"]) := by
  exact ⟨by simp, by rfl⟩

/-- C8 amended: the tool answers `{action: duplicate, id}` — inserting
nothing — exactly when some ≥ 0.95-similar hit has trimmed text equal to
the trimmed input (the id is the first such hit's); otherwise it inserts
exactly one new row and answers `created`. -/
theorem memoryStoreExecute_amended (hits : List MemHit) (rows : List String)
    (text newId : String) :
    (∀ r, hits.find? (fun r => trimSpace r.text = trimSpace text) = some r →
        memoryStoreExecute hits rows text newId =
          (MemStoreAction.duplicate r.id, rows)) ∧
    (hits.find? (fun r => trimSpace r.text = trimSpace text) = none →
        memoryStoreExecute hits rows text newId =
          (MemStoreAction.created newId, rows ++ [newId])) := by
  constructor
  · intro r hr
    simp [memoryStoreExecute, hr]
  · intro hr
    simp [memoryStoreExecute, hr]

/-- Witness for the amended C8 theorem: an exact-duplicate store call
and a fresh store call. -/
theorem memoryStoreExecute_amended_witness :
    memoryStoreExecute [nearDuplicateHit] [] "user prefers dark mode" "m2" =
        (MemStoreAction.duplicate "m1", []) ∧
      memoryStoreExecute [] [] "cats are great" "m3" =
        (MemStoreAction.created "m3", ["m3"]) :=
  ⟨(memoryStoreExecute_amended [nearDuplicateHit] [] "user prefers dark mode"
      "m2").1 nearDuplicateHit (by rfl),
    (memoryStoreExecute_amended [] [] "cats are great" "m3").2 (by rfl)⟩

/-! ## Theorems: compaction preserves the tail (C1) -/

/-- `GetMessages` returns the newest `n` rows: the reverse/take/reverse
is the `drop` of all but the last `n`. -/
theorem getMessages_eq_drop (msgs : List StoredMessage) (n : Nat) :
    getMessages msgs n = msgs.drop (msgs.length - n) := by
  rw [getMessages, ← List.rtake_eq_reverse_take_reverse, List.rtake]

/-- Token estimate of a constant history. -/
theorem estimateTokensFromStore_replicate (n : Nat) (m : StoredMessage) :
    estimateTokensFromStore (List.replicate n m) =
      n * (m.content.length / 4 + 4) := by
  simp [estimateTokensFromStore, List.map_replicate, List.sum_replicate,
    smul_eq_mul]

/-- The joined summary is at least as long as its first line. -/
theorem joinStrings_head_le_length (sep x : String) (xs : List String) :
    x.length ≤ (joinStrings sep (x :: xs)).length := by
  cases xs with
  | nil => simp [joinStrings]
  | cons y ys =>
      simp only [joinStrings, String.length_append]
      omega

/-- The summary of a non-empty message list is non-empty (every line
contains at least the `": "` separator). -/
theorem buildSummary_ne_empty (msgs : List StoredMessage) (h : msgs ≠ []) :
    buildSummary msgs ≠ "" := by
  match msgs with
  | m :: rest =>
    unfold buildSummary
    simp only [reduceCtorEq, if_false]
    set line := (fun m : StoredMessage =>
      m.role ++ ": " ++
        (if m.content.length > 200 then m.content.take 200 ++ "..."
         else m.content)) with hline
    have hlen : 2 ≤ (line m).length := by
      rw [hline]
      simp only [String.length_append]
      have : (": ").length = 2 := by rfl
      omega
    have hjoin : 2 ≤ (joinStrings "\n" ((m :: rest).map line)).length := by
      have := joinStrings_head_le_length "\n" (line m) (rest.map line)
      simp only [List.map_cons] at *
      omega
    intro hcon
    split_ifs at hcon with hover
    · have hlen0 := congrArg String.length hcon
      rw [String.length_append] at hlen0
      have h3 : ("..." : String).length = 3 := rfl
      have h0 : ("" : String).length = 0 := rfl
      omega
    · have hlen0 := congrArg String.length hcon
      have h0 : ("" : String).length = 0 := rfl
      omega

/-- The history the C1 counterexample uses: 2000 stored messages with
empty content (each estimates to 4 tokens). -/
def flatHistory : List StoredMessage :=
  List.replicate 2000 { role := "user", content := "" }

/-- C1 counterexample: over the full stored history the trigger holds
(8000 ≥ 6368 tokens, 2000 > 30 messages), so the claim requires the
31-message compacted form; but `maybeCompact` only estimates tokens over
the newest 500 rows (`GetMessages(sessionKey, 500)`), sees 2000 < 6368
there, and leaves the 2000 messages untouched. -/
theorem maybeCompact_claim_cex :
    compactionThreshold ≤ estimateTokensFromStore flatHistory ∧
      keepMessages < flatHistory.length ∧
      maybeCompact flatHistory = flatHistory ∧
      (maybeCompact flatHistory).length ≠ keepMessages + 1 := by
  have hstored : getMessages flatHistory 500 =
      List.replicate 500 { role := "user", content := "" } := by
    rw [getMessages_eq_drop, flatHistory, List.length_replicate,
      List.drop_replicate]
  have hest : estimateTokensFromStore flatHistory = 8000 := by
    rw [flatHistory, estimateTokensFromStore_replicate]; rfl
  have hunchanged : maybeCompact flatHistory = flatHistory := by
    rw [maybeCompact, hstored, estimateTokensFromStore_replicate]
    rw [if_pos]
    exact Or.inl (by norm_num [compactionThreshold])
  have hflatlen : flatHistory.length = 2000 := by
    rw [flatHistory, List.length_replicate]
  refine ⟨by rw [hest]; norm_num [compactionThreshold], ?_, hunchanged, ?_⟩
  · rw [hflatlen, keepMessages]; norm_num
  · rw [hunchanged, hflatlen, keepMessages]; norm_num

/-- C1 amended: the trigger is evaluated over the newest 500 stored
messages (the `GetMessages` fetch window), not the full history.  When
the fetched window estimates ≥ 6368 tokens and holds more than 30
messages, the session's messages afterwards are exactly the
pre-compaction newest 30 (same roles and contents, in order) followed by
one `system` message whose content is `"[summary]\n"` + the summary of
the discarded window prefix; otherwise the messages are unchanged.  For
histories of at most 500 messages this trigger coincides with the
claim's. -/
theorem maybeCompact_amended (msgs : List StoredMessage) :
    (compactionThreshold ≤ estimateTokensFromStore (getMessages msgs 500) ∧
        keepMessages < (getMessages msgs 500).length →
      maybeCompact msgs =
        msgs.drop (msgs.length - keepMessages) ++
          [{ role := "system",
             content := "[summary]\n" ++
               buildSummary ((getMessages msgs 500).take
                 ((getMessages msgs 500).length - keepMessages)) }]) ∧
    (estimateTokensFromStore (getMessages msgs 500) < compactionThreshold ∨
        (getMessages msgs 500).length ≤ keepMessages →
      maybeCompact msgs = msgs) := by
  have hk : keepMessages = 30 := rfl
  constructor
  · rintro ⟨htok, hlen⟩
    rw [maybeCompact]
    rw [if_neg (by omega)]
    have hne : (getMessages msgs 500).take
        ((getMessages msgs 500).length - keepMessages) ≠ [] := by
      apply List.length_pos.mp
      rw [List.length_take]
      omega
    dsimp only
    rw [if_pos (buildSummary_ne_empty _ hne)]
    have hkeep : List.drop ((getMessages msgs 500).length - keepMessages)
        (getMessages msgs 500) = List.drop (msgs.length - keepMessages) msgs := by
      rw [getMessages_eq_drop, List.drop_drop, List.length_drop]
      have harith : msgs.length - 500 +
          (msgs.length - (msgs.length - 500) - keepMessages) =
          msgs.length - keepMessages := by
        rw [getMessages_eq_drop, List.length_drop] at hlen
        omega
      rw [harith]
    rw [hkeep]
  · intro h
    rw [maybeCompact]
    rw [if_pos h]

/-- A 500-message history of 40-character messages: 500 · (40/4 + 4) =
7000 estimated tokens, above the 6368 threshold. -/
def wideHistory : List StoredMessage :=
  List.replicate 500
    { role := "user", content := "0123456789012345678901234567890123456789" }

/-- Witness for the amended C1 theorem: a history that triggers
compaction, and one that does not. -/
theorem maybeCompact_amended_witness :
    (maybeCompact wideHistory =
        wideHistory.drop (wideHistory.length - keepMessages) ++
          [{ role := "system",
             content := "[summary]\n" ++
               buildSummary ((getMessages wideHistory 500).take
                 ((getMessages wideHistory 500).length - keepMessages)) }]) ∧
      maybeCompact [] = [] := by
  have hw : getMessages wideHistory 500 = wideHistory := by
    rw [getMessages_eq_drop, wideHistory, List.length_replicate, Nat.sub_self,
      List.drop_zero]
  refine ⟨(maybeCompact_amended wideHistory).1 ⟨?_, ?_⟩,
    (maybeCompact_amended []).2 (Or.inr (by decide))⟩
  · rw [hw, wideHistory, estimateTokensFromStore_replicate]
    have hcl : ("0123456789012345678901234567890123456789" : String).length = 40 :=
      rfl
    rw [hcl, compactionThreshold]
    norm_num
  · rw [hw, wideHistory, List.length_replicate]
    decide

/-! ## Theorems: tool-chain depth bound (C2) -/

/-- At the depth bound, `handleToolCalls` returns the marshalled
`{"tool_results": [...]}` blob of the calls it was handed. -/
theorem handleToolCalls_at_bound (model : ModelFun) (reg : ToolRegistry)
    (msgs : List AgentMessage) (calls : List ToolCall)
    (aMsg : Option AgentMessage) (depth : Nat) (hd : 2 ≤ depth) :
    handleToolCalls model reg true msgs calls aMsg depth =
      jsonRender (encodeToolResponse (executeToolCalls reg calls)) := by
  rw [handleToolCalls.eq_def]
  rw [dif_pos (Or.inr hd)]

/-- With a model that always replies with valid tool calls, a call at
any depth resolves to the results blob of some non-empty call list. -/
theorem callAPIWithDepth_resolves (model : ModelFun) (reg : ToolRegistry)
    (hmodel : ∀ msgs, validToolCalls (model msgs) ≠ []) :
    ∀ (fuel depth : Nat), 2 ≤ depth + fuel → ∀ (msgs : List AgentMessage),
      ∃ finalCalls ≠ ([] : List ToolCall),
        callAPIWithDepth model reg true msgs depth =
          jsonRender (encodeToolResponse (executeToolCalls reg finalCalls)) := by
  intro fuel
  induction fuel with
  | zero =>
      intro depth hd msgs
      refine ⟨validToolCalls (model msgs), hmodel msgs, ?_⟩
      rw [callAPIWithDepth.eq_def,
        if_neg (by simpa [List.isEmpty_iff] using hmodel msgs)]
      exact handleToolCalls_at_bound model reg msgs _ _ depth (by omega)
  | succ n ih =>
      intro depth hd msgs
      by_cases hdepth : 2 ≤ depth
      · refine ⟨validToolCalls (model msgs), hmodel msgs, ?_⟩
        rw [callAPIWithDepth.eq_def,
          if_neg (by simpa [List.isEmpty_iff] using hmodel msgs)]
        exact handleToolCalls_at_bound model reg msgs _ _ depth hdepth
      · rw [callAPIWithDepth.eq_def,
          if_neg (by simpa [List.isEmpty_iff] using hmodel msgs)]
        rw [handleToolCalls.eq_def, dif_neg (by simp [hdepth])]
        exact ih (depth + 1) (by omega) _

/-- C2: for every conversation and every model that always returns
(valid) tool calls, the chain entered at depth 0 — `Chat`'s
caller-initiated entry into `handleToolCalls` as well as the model
round of `callAPI` — terminates, and the value returned at the depth
bound is the JSON encoding of the aggregated tool results of the final
round (`{"tool_results": [...]}` with each result wrapped as
`{success, result|error, tool}` by `executeToolCalls`); the recursion
adds at most 2 rounds beyond the entry round. -/
theorem toolChain_depth_bound (model : ModelFun) (reg : ToolRegistry)
    (hmodel : ∀ msgs, validToolCalls (model msgs) ≠ []) :
    ∀ (msgs : List AgentMessage) (calls : List ToolCall)
      (aMsg : Option AgentMessage),
      ∃ finalCalls ≠ ([] : List ToolCall),
        handleToolCalls model reg true msgs calls aMsg 0 =
          jsonRender (encodeToolResponse (executeToolCalls reg finalCalls)) := by
  intro msgs calls aMsg
  rw [handleToolCalls.eq_def, dif_neg (by simp)]
  exact callAPIWithDepth_resolves model reg hmodel 1 1 (by omega) _

/-- A model that always answers with one valid tool call. -/
def constCallModel : ModelFun := fun _ =>
  { content := "",
    toolCalls := [{ id := "c1", name := "read", arguments := "x" }] }

/-- A registry whose tools always succeed. -/
def okRegistry : ToolRegistry := fun _ _ => Except.ok (Json.str "done")

/-- Witness for C2 at a concrete model, registry and entry. -/
theorem toolChain_depth_bound_witness :
    ∃ finalCalls ≠ ([] : List ToolCall),
      handleToolCalls constCallModel okRegistry true []
          [{ id := "c0", name := "read", arguments := "x" }] none 0 =
        jsonRender (encodeToolResponse (executeToolCalls okRegistry finalCalls)) :=
  toolChain_depth_bound constCallModel okRegistry
    (fun msgs => show validToolCalls (constCallModel msgs) ≠ [] from by
      rw [constCallModel]; decide) []
    [{ id := "c0", name := "read", arguments := "x" }] none

/-! ## Theorems: write-time normalization (C7) -/

/-- "L2 norm within 1e-6 of 1": since norms are non-negative this is
equivalent to the squared norm lying between `(1 - 1e-6)²` and
`(1 + 1e-6)²`, which avoids square roots. -/
def normWithinTolOfOne (v : List ℚ) : Prop :=
  (1 - 1/1000000)^2 ≤ normSq v ∧ normSq v ≤ (1 + 1/1000000)^2

/-- A store built with no embedding provider: `NewVectorMemoryStore`
then never creates the HNSW index (metric `"cosine"` is what the
constructor would hardcode), and `getEmbedding` uses the placeholder
(here with configured dimension 2). -/
def placeholderOnlyStore : MemStoreState :=
  { hasProvider := false, hnswPresent := false, metric := "cosine",
    embeddingDim := 2 }

/-- C7 counterexample: an entry written while the HNSW index is absent —
in particular every placeholder-embedded entry, since the index is only
created when a provider exists — is persisted unnormalized:
`getEmbedding` guards normalization on `s.hnsw != nil`.  The placeholder
vector of dimension 2 is `[0, 1/256]`, whose norm is nowhere near 1. -/
theorem getEmbedding_norm_claim_cex :
    ¬ normWithinTolOfOne (getEmbedding (fun x => x) placeholderOnlyStore []) := by
  intro h
  have h1 : getEmbedding (fun x => x) placeholderOnlyStore [] =
      placeholderVector 2 := by
    rw [getEmbedding, embeddingInput]
    norm_num [placeholderOnlyStore]
  rw [h1] at h
  have h2 : normSq (placeholderVector 2) = 1/65536 := by
    norm_num [placeholderVector, normSq, List.range_succ]
  rw [normWithinTolOfOne, h2] at h
  norm_num at h

/-- Squared norm after dividing every component by `c`. -/
theorem normSq_map_div (v : List ℚ) (c : ℚ) (hc : c ≠ 0) :
    normSq (v.map (fun x => x / c)) = normSq v / (c * c) := by
  induction v with
  | nil => simp [normSq]
  | cons x xs ih =>
      simp only [List.map_cons, normSq, List.sum_cons] at *
      rw [ih]
      field_simp

/-- Normalizing a vector of non-zero norm yields squared norm 1 (`sqrt`
is any function satisfying the square-root equation on the one value it
is applied to). -/
theorem normSq_normalizeVector (sqrt : ℚ → ℚ) (v : List ℚ)
    (hnz : normSq v ≠ 0)
    (hs : sqrt (normSq v) * sqrt (normSq v) = normSq v) :
    normSq (normalizeVector sqrt v) = 1 := by
  have hc : sqrt (normSq v) ≠ 0 := by
    intro h0
    rw [h0, zero_mul] at hs
    exact hnz hs.symm
  rw [normalizeVector, if_neg hnz, normSq_map_div v _ hc, hs, div_self hnz]

/-- C7 amended: the vector persisted by `Store`/`StoreWithSource` (and
by a re-embedding `Update`) is L2-normalized — exactly unit squared norm
in real arithmetic — precisely when the HNSW index is present with
metric cosine/ip and the embedding is non-zero; when the index is absent
(in particular for every placeholder-embedded entry, since the index
exists only alongside a provider) the raw vector is persisted
unnormalized. -/
theorem getEmbedding_amended (sqrt : ℚ → ℚ) (st : MemStoreState)
    (raw : List ℚ) (hnz : normSq (embeddingInput st raw) ≠ 0)
    (hs : sqrt (normSq (embeddingInput st raw)) *
        sqrt (normSq (embeddingInput st raw)) = normSq (embeddingInput st raw)) :
    (st.hnswPresent = true ∧ (st.metric = "cosine" ∨ st.metric = "ip") →
        normSq (getEmbedding sqrt st raw) = 1) ∧
    (¬(st.hnswPresent = true ∧ (st.metric = "cosine" ∨ st.metric = "ip")) →
        getEmbedding sqrt st raw = embeddingInput st raw) := by
  constructor
  · intro hcond
    rw [getEmbedding]
    rw [if_pos hcond]
    exact normSq_normalizeVector sqrt _ hnz hs
  · intro hcond
    rw [getEmbedding]
    rw [if_neg hcond]

/-- The square root function the C7 witness feeds in (correct on the
two squared norms it is applied to). -/
def sqrtAt25 : ℚ → ℚ := fun x =>
  if x = 25 then 5 else if x = 1/65536 then 1/256 else 0

/-- A store with a live cosine HNSW index. -/
def cosineIndexStore : MemStoreState :=
  { hasProvider := true, hnswPresent := true, metric := "cosine",
    embeddingDim := 2 }

/-- Witness for the amended C7 theorem: a provider embedding `[3, 4]`
(norm 5) under a live cosine index, and the same embedding with the
index absent. -/
theorem getEmbedding_amended_witness :
    normSq (getEmbedding sqrtAt25 cosineIndexStore [3, 4]) = 1 ∧
      getEmbedding sqrtAt25 placeholderOnlyStore [3, 4] =
        embeddingInput placeholderOnlyStore [3, 4] := by
  have h25 : normSq (embeddingInput cosineIndexStore [3, 4]) = 25 := by
    norm_num [normSq, embeddingInput, cosineIndexStore]
  constructor
  · exact (getEmbedding_amended sqrtAt25 cosineIndexStore [3, 4]
      (by rw [h25]; norm_num)
      (by rw [h25]; norm_num [sqrtAt25])).1 ⟨rfl, Or.inl rfl⟩
  · have hps : normSq (embeddingInput placeholderOnlyStore [3, 4]) = 1/65536 := by
      rw [embeddingInput]
      norm_num [placeholderOnlyStore, placeholderVector, normSq, List.range_succ]
    exact (getEmbedding_amended sqrtAt25 placeholderOnlyStore [3, 4]
      (by rw [hps]; norm_num)
      (by rw [hps]; norm_num [sqrtAt25])).2
      (by norm_num [placeholderOnlyStore])

/-! ## Theorems: hybrid search scoring (C6) — supporting lemmas -/

/-- A squared norm is non-negative. -/
theorem normSq_nonneg (v : List ℚ) : 0 ≤ normSq v := by
  apply List.sum_nonneg
  intro x hx
  obtain ⟨y, _, rfl⟩ := List.mem_map.mp hx
  exact mul_self_nonneg y

/-- Cauchy–Schwarz for the list dot product. -/
theorem dotList_sq_le (a : List ℚ) : ∀ b : List ℚ,
    (dotList a b)^2 ≤ normSq a * normSq b := by
  induction a with
  | nil =>
      intro b
      simp [dotList, normSq]
  | cons x xs ih =>
      intro b
      cases b with
      | nil => simp [dotList, normSq, mul_nonneg (normSq_nonneg (x :: xs))]
      | cons y ys =>
          have hA : 0 ≤ normSq xs := normSq_nonneg xs
          have hB : 0 ≤ normSq ys := normSq_nonneg ys
          have hIH := ih ys
          have hgoal : dotList (x :: xs) (y :: ys) = x * y + dotList xs ys := by
            simp [dotList]
          have hna : normSq (x :: xs) = x * x + normSq xs := by simp [normSq]
          have hnb : normSq (y :: ys) = y * y + normSq ys := by simp [normSq]
          rw [hgoal, hna, hnb]
          rcases hB.lt_or_eq with hBpos | hBzero
          · nlinarith [sq_nonneg (x * normSq ys - y * dotList xs ys),
              mul_nonneg (sub_nonneg.mpr hIH)
                (add_nonneg (mul_self_nonneg y) hB), hBpos]
          · have hd : dotList xs ys = 0 := by
              have h0 : (dotList xs ys)^2 ≤ 0 := by
                rw [← hBzero] at hIH
                simpa using hIH
              have := sq_nonneg (dotList xs ys)
              nlinarith
            rw [hd, ← hBzero]
            nlinarith [mul_nonneg hA (mul_self_nonneg y)]

/-- Dot product of unit vectors is at most 1. -/
theorem dotList_le_one (a b : List ℚ) (ha : normSq a = 1) (hb : normSq b = 1) :
    dotList a b ≤ 1 := by
  have h := dotList_sq_le a b
  rw [ha, hb] at h
  nlinarith [sq_nonneg (dotList a b - 1)]

/-- The keyword score is at most 1. -/
theorem textScoreOf_le_one (bm25 : ℚ) : textScoreOf bm25 ≤ 1 := by
  rw [textScoreOf, maxf]
  split_ifs with h
  · norm_num
  · have hb : (0 : ℚ) ≤ bm25 := le_of_not_lt h
    rw [div_le_one (by linarith)]
    linarith

/-- The keyword score is positive. -/
theorem textScoreOf_pos (bm25 : ℚ) : 0 < textScoreOf bm25 := by
  rw [textScoreOf, maxf]
  split_ifs with h
  · norm_num
  · have hb : (0 : ℚ) ≤ bm25 := le_of_not_lt h
    exact div_pos one_pos (by linarith)

/-- `find?` through a cons, in if form. -/
theorem poolScore_cons (p : String × ℚ) (rest : ScoreList) (id : String) :
    poolScore (p :: rest) id =
      if p.1 = id then some p.2 else poolScore rest id := by
  rw [poolScore, List.find?_cons]
  split_ifs with h <;> simp_all [poolScore]

/-- Map presence agrees with the `merged[id]` membership test. -/
theorem poolScore_isSome_eq_any (l : ScoreList) (id : String) :
    (poolScore l id).isSome = l.any (fun q => q.1 = id) := by
  induction l with
  | nil => simp [poolScore]
  | cons p rest ih =>
      rw [poolScore_cons]
      by_cases h : p.1 = id <;> simp [h, ih]

/-- Lookup in an appended pool. -/
theorem poolScore_append (l1 l2 : ScoreList) (id : String) :
    poolScore (l1 ++ l2) id = (poolScore l1 id).or (poolScore l2 id) := by
  rw [poolScore, poolScore, poolScore, List.find?_append]
  cases List.find? (fun p => p.1 = id) l1 <;> simp

/-- Lookup after the in-place `m.score += tw*textScore` update. -/
theorem poolScore_update (acc : ScoreList) (id0 : String) (d : ℚ) (id : String) :
    poolScore (acc.map (fun q => if q.1 = id0 then (q.1, q.2 + d) else q)) id =
      if id = id0 then (poolScore acc id).map (fun a => a + d)
      else poolScore acc id := by
  induction acc with
  | nil => simp [poolScore]
  | cons q rest ih =>
      simp only [List.map_cons]
      by_cases hq0 : q.1 = id0
      · by_cases hid : id = id0
        · rw [if_pos hq0, poolScore_cons, poolScore_cons]
          simp only [hq0, hid, if_pos rfl]
          simp
        · rw [if_pos hq0, poolScore_cons, poolScore_cons]
          have hq : q.1 ≠ id := by rw [hq0]; exact fun hc => hid hc.symm
          rw [if_neg hq, if_neg hq, ih, if_neg hid]
      · rw [if_neg hq0, poolScore_cons, poolScore_cons]
        by_cases hq : q.1 = id
        · have hid : id ≠ id0 := by rw [← hq]; exact hq0
          rw [if_pos hq, if_pos hq, if_neg hid]
        · rw [if_neg hq, if_neg hq, ih]

/-- An id absent from the membership test is absent from the id list. -/
theorem not_mem_fst_of_any_false (l : ScoreList) (id : String)
    (h : l.any (fun q => q.1 = id) = false) : id ∉ l.map Prod.fst := by
  intro hmem
  obtain ⟨p, hp, hfst⟩ := List.mem_map.mp hmem
  have : l.any (fun q => q.1 = id) = true :=
    List.any_eq_true.mpr ⟨p, hp, by simp only [decide_eq_true_eq]; exact hfst⟩
  rw [h] at this
  exact Bool.false_ne_true this

/-- With distinct ids, every stored pair is what lookup returns. -/
theorem poolScore_of_mem (l : ScoreList) (hnd : (l.map Prod.fst).Nodup)
    (p : String × ℚ) (hp : p ∈ l) : poolScore l p.1 = some p.2 := by
  induction l with
  | nil => cases hp
  | cons q rest ih =>
      rw [poolScore_cons]
      rcases List.mem_cons.mp hp with rfl | hrest
      · rw [if_pos rfl]
      · have hq : q.1 ≠ p.1 := by
          intro hc
          have hfst : p.1 ∈ rest.map Prod.fst :=
            List.mem_map.mpr ⟨p, hrest, rfl⟩
          rw [List.map_cons, List.nodup_cons] at hnd
          exact hnd.1 (hc ▸ hfst)
        rw [if_neg hq]
        exact ih (by rw [List.map_cons, List.nodup_cons] at hnd; exact hnd.2) hrest

/-- A successful lookup means the id occurs in the pool. -/
theorem mem_fst_of_poolScore_some (l : ScoreList) (id : String) (v : ℚ)
    (h : poolScore l id = some v) : id ∈ l.map Prod.fst := by
  rw [poolScore] at h
  cases hf : List.find? (fun p => p.1 = id) l with
  | none => rw [hf] at h; cases h
  | some p =>
      have hpl := List.mem_of_find?_eq_some hf
      have hpe := List.find?_some hf
      simp only [decide_eq_true_eq] at hpe
      exact hpe ▸ List.mem_map.mpr ⟨p, hpl, rfl⟩

/-- The vector phase keeps the id column unchanged. -/
theorem mergeVec_ids (vw : ℚ) (l : ScoreList) :
    (mergeVecCandidates vw l).map Prod.fst = l.map Prod.fst := by
  rw [mergeVecCandidates, List.map_map]
  rfl

/-- Lookup after the vector phase. -/
theorem poolScore_mergeVec (vw : ℚ) (l : ScoreList) (id : String) :
    poolScore (mergeVecCandidates vw l) id =
      (poolScore l id).map (fun s => vw * s) := by
  induction l with
  | nil => simp [poolScore, mergeVecCandidates]
  | cons p rest ih =>
      simp only [mergeVecCandidates, List.map_cons] at *
      rw [poolScore_cons, poolScore_cons]
      by_cases h : p.1 = id
      · simp [h]
      · simp [h, ih]

/-- Lookup after the keyword phase: each keyword candidate adds its
weighted text score to the vector entry, or enters alone. -/
theorem mergeText_poolScore (tw : ℚ) :
    ∀ (ts acc : ScoreList), (ts.map Prod.fst).Nodup → ∀ id : String,
      poolScore (mergeTextCandidates tw acc ts) id =
        match poolScore acc id, poolScore ts id with
        | some a, some bm => some (a + tw * textScoreOf bm)
        | some a, none => some a
        | none, some bm => some (tw * textScoreOf bm)
        | none, none => none := by
  intro ts
  induction ts with
  | nil =>
      intro acc _ id
      rw [mergeTextCandidates]
      have h0 : poolScore ([] : ScoreList) id = none := rfl
      rw [h0]
      cases h : poolScore acc id <;> rfl
  | cons hd rest ih =>
      intro acc hnd id
      obtain ⟨id0, bm0⟩ := hd
      have hndrest : (rest.map Prod.fst).Nodup := by
        rw [List.map_cons, List.nodup_cons] at hnd
        exact hnd.2
      have hid0notin : id0 ∉ rest.map Prod.fst := by
        rw [List.map_cons, List.nodup_cons] at hnd
        exact hnd.1
      rw [mergeTextCandidates]
      by_cases hin : acc.any (fun q => q.1 = id0) = true
      · rw [if_pos hin, ih _ hndrest id, poolScore_update]
        by_cases hiid : id = id0
        · subst hiid
          obtain ⟨a, ha⟩ : ∃ a, poolScore acc id = some a := by
            have hs := poolScore_isSome_eq_any acc id
            rw [hin] at hs
            exact Option.isSome_iff_exists.mp hs
          have hrest0 : poolScore rest id = none := by
            cases hr : poolScore rest id with
            | none => rfl
            | some v =>
                exact ((hid0notin (mem_fst_of_poolScore_some rest id v hr)).elim)
          simp [ha, hrest0, poolScore_cons]
        · have hne : id0 ≠ id := fun hc => hiid hc.symm
          rw [if_neg hiid, poolScore_cons, if_neg hne]
      · rw [if_neg hin, ih _ hndrest id, poolScore_append]
        have haccnone : poolScore acc id0 = none := by
          cases hx : poolScore acc id0 with
          | none => rfl
          | some v =>
              have hs := poolScore_isSome_eq_any acc id0
              rw [hx] at hs
              simp only [Option.isSome_some] at hs
              exact absurd hs.symm hin
        by_cases hiid : id = id0
        · subst hiid
          have hrest0 : poolScore rest id = none := by
            cases hr : poolScore rest id with
            | none => rfl
            | some v =>
                exact ((hid0notin (mem_fst_of_poolScore_some rest id v hr)).elim)
          rw [haccnone, hrest0, poolScore_cons, if_pos rfl]
          rw [poolScore_cons, if_pos rfl]
          simp
        · have hne : id0 ≠ id := fun hc => hiid hc.symm
          rw [poolScore_cons, if_neg hne, poolScore_cons, if_neg hne]
          have h0 : poolScore ([] : ScoreList) id = none := rfl
          rw [h0, Option.or_none]

/-- The keyword phase keeps the id column duplicate-free. -/
theorem mergeText_ids_nodup (tw : ℚ) :
    ∀ (ts acc : ScoreList), ((acc.map Prod.fst).Nodup) →
      ((ts.map Prod.fst).Nodup) →
      ((mergeTextCandidates tw acc ts).map Prod.fst).Nodup := by
  intro ts
  induction ts with
  | nil =>
      intro acc hacc _
      rw [mergeTextCandidates]
      exact hacc
  | cons hd rest ih =>
      intro acc hacc hnd
      obtain ⟨id0, bm0⟩ := hd
      have hndrest : (rest.map Prod.fst).Nodup := by
        rw [List.map_cons, List.nodup_cons] at hnd
        exact hnd.2
      rw [mergeTextCandidates]
      by_cases hin : acc.any (fun q => q.1 = id0) = true
      · rw [if_pos hin]
        apply ih _ _ hndrest
        have hids : (acc.map (fun q =>
            if q.1 = id0 then (q.1, q.2 + tw * textScoreOf bm0) else q)).map
              Prod.fst = acc.map Prod.fst := by
          rw [List.map_map]
          apply List.map_congr_left
          intro q _
          by_cases hq : q.1 = id0 <;> simp [hq]
        rw [hids]
        exact hacc
      · rw [if_neg hin]
        apply ih _ _ hndrest
        rw [List.map_append]
        have hnotin : id0 ∉ acc.map Prod.fst :=
          not_mem_fst_of_any_false acc id0 (Bool.not_eq_true _ ▸ hin)
        simp [List.nodup_append, hacc, hnotin]

/-- Every entry of the merged pool carries exactly the spec's hybrid
score for its id. -/
theorem merged_entry_score (vw tw : ℚ) (vecResults textScores : ScoreList)
    (hv : (vecResults.map Prod.fst).Nodup)
    (ht : (textScores.map Prod.fst).Nodup) :
    ∀ p ∈ mergeTextCandidates tw (mergeVecCandidates vw vecResults) textScores,
      p.2 = hybridScoreFormula vw tw vecResults textScores p.1 := by
  intro p hp
  have hvm : ((mergeVecCandidates vw vecResults).map Prod.fst).Nodup := by
    rw [mergeVec_ids]
    exact hv
  have hndm := mergeText_ids_nodup tw textScores _ hvm ht
  have hps := poolScore_of_mem _ hndm p hp
  rw [mergeText_poolScore tw textScores _ ht p.1, poolScore_mergeVec] at hps
  rw [hybridScoreFormula]
  cases hvs : poolScore vecResults p.1 <;> cases hts : poolScore textScores p.1 <;>
    rw [hvs, hts] at hps <;> simp at hps <;> simp [← hps]

/-- Inserting preserves the multiset of entries. -/
theorem insertScoreDesc_perm (x : String × ℚ) (l : ScoreList) :
    List.Perm (insertScoreDesc x l) (x :: l) := by
  induction l with
  | nil => rfl
  | cons y ys ih =>
      rw [insertScoreDesc]
      split_ifs with h
      · rfl
      · exact List.Perm.trans (ih.cons y) (List.Perm.swap x y ys)

/-- The sort is a permutation of its input. -/
theorem sortScoresDesc_perm (l : ScoreList) : List.Perm (sortScoresDesc l) l := by
  induction l with
  | nil => rfl
  | cons x xs ih =>
      rw [sortScoresDesc]
      exact List.Perm.trans (insertScoreDesc_perm x (sortScoresDesc xs)) (ih.cons x)

/-- Inserting into a descending list keeps it descending. -/
theorem insertScoreDesc_pairwise (x : String × ℚ) (l : ScoreList)
    (hl : l.Pairwise (fun a b => b.2 ≤ a.2)) :
    (insertScoreDesc x l).Pairwise (fun a b => b.2 ≤ a.2) := by
  induction l with
  | nil => simp [insertScoreDesc]
  | cons y ys ih =>
      rw [insertScoreDesc]
      rw [List.pairwise_cons] at hl
      split_ifs with h
      · rw [List.pairwise_cons]
        constructor
        · intro z hz
          rcases List.mem_cons.mp hz with rfl | hzys
          · exact h
          · exact le_trans (hl.1 z hzys) h
        · exact List.pairwise_cons.mpr hl
      · rw [List.pairwise_cons]
        constructor
        · intro z hz
          have hz' := (insertScoreDesc_perm x ys).mem_iff.mp hz
          rcases List.mem_cons.mp hz' with rfl | hzys
          · exact le_of_not_le h
          · exact hl.1 z hzys
        · exact ih hl.2

/-- The sorted list is descending by score. -/
theorem sortScoresDesc_pairwise (l : ScoreList) :
    (sortScoresDesc l).Pairwise (fun a b => b.2 ≤ a.2) := by
  induction l with
  | nil => simp [sortScoresDesc]
  | cons x xs ih => exact insertScoreDesc_pairwise x _ ih

/-- The final loop selects a sublist of the sorted candidates. -/
theorem collectTopScores_sublist (m : ℚ) :
    ∀ (lim : Nat) (l : ScoreList), List.Sublist (collectTopScores m lim l) l := by
  intro lim l
  induction l generalizing lim with
  | nil => simp [collectTopScores]
  | cons x xs ih =>
      rw [collectTopScores]
      split_ifs with h1 h2
      · exact (ih lim).cons x
      · exact (List.nil_sublist xs).cons₂ x
      · exact (ih (lim - 1)).cons₂ x

/-- Everything the final loop keeps clears the score floor. -/
theorem collectTopScores_minScore (m : ℚ) :
    ∀ (lim : Nat) (l : ScoreList) (p : String × ℚ),
      p ∈ collectTopScores m lim l → m ≤ p.2 := by
  intro lim l
  induction l generalizing lim with
  | nil => simp [collectTopScores]
  | cons x xs ih =>
      intro p hp
      rw [collectTopScores] at hp
      split_ifs at hp with h1 h2
      · exact ih lim p hp
      · rcases List.mem_singleton.mp hp with rfl
        exact le_of_not_lt h1
      · rcases List.mem_cons.mp hp with rfl | hrest
        · exact le_of_not_lt h1
        · exact ih (lim - 1) p hrest

/-- The final loop returns at most `limit` entries. -/
theorem collectTopScores_length (m : ℚ) :
    ∀ (lim : Nat) (l : ScoreList), 1 ≤ lim →
      (collectTopScores m lim l).length ≤ lim := by
  intro lim l
  induction l generalizing lim with
  | nil => simp [collectTopScores]
  | cons x xs ih =>
      intro hlim
      rw [collectTopScores]
      split_ifs with h1 h2
      · exact ih lim hlim
      · simpa using hlim
      · have := ih (lim - 1) (by omega)
        simp only [List.length_cons]
        omega

/-- A successful lookup comes from a stored pair. -/
theorem exists_mem_of_poolScore_some (l : ScoreList) (id : String) (v : ℚ)
    (h : poolScore l id = some v) : ∃ q ∈ l, q.2 = v := by
  rw [poolScore] at h
  cases hf : List.find? (fun p => p.1 = id) l with
  | none => rw [hf] at h; cases h
  | some q =>
      rw [hf] at h
      exact ⟨q, List.mem_of_find?_eq_some hf, by simpa using h⟩

/-- C6: every result of `hybridSearch` scores
`vectorWeight·vectorScore + textWeight·(1/(1+max(0,bm25)))` for its id
(missing components contributing 0); the returned list is descending by
score, contains only entries at or above `minScore`, and has length at
most `limit`; and — with all stored vectors and the query L2-normalized
under the cosine/ip metric, so that every vector candidate score is an
inner product of unit vectors — every returned score is at most
`vectorWeight·1 + textWeight·1`. -/
theorem hybridSearch_spec (vw tw : ℚ) (limit : Nat) (minScore : ℚ)
    (vecResults textScores : ScoreList) (queryVec : List ℚ)
    (hvw : 0 ≤ vw) (htw : 0 ≤ tw) (hlim : 1 ≤ limit)
    (hvnd : (vecResults.map Prod.fst).Nodup)
    (htnd : (textScores.map Prod.fst).Nodup)
    (hq : normSq queryVec = 1)
    (hvec : ∀ p ∈ vecResults, ∃ w, normSq w = 1 ∧ p.2 = dotList queryVec w) :
    (∀ p ∈ hybridSearch vw tw limit minScore vecResults textScores,
        p.2 = hybridScoreFormula vw tw vecResults textScores p.1) ∧
    (hybridSearch vw tw limit minScore vecResults textScores).Pairwise
        (fun a b => b.2 ≤ a.2) ∧
    (∀ p ∈ hybridSearch vw tw limit minScore vecResults textScores,
        minScore ≤ p.2) ∧
    (hybridSearch vw tw limit minScore vecResults textScores).length ≤ limit ∧
    (∀ p ∈ hybridSearch vw tw limit minScore vecResults textScores,
        p.2 ≤ vw * 1 + tw * 1) := by
  have hout : hybridSearch vw tw limit minScore vecResults textScores =
      collectTopScores minScore limit
        (sortScoresDesc
          (mergeTextCandidates tw (mergeVecCandidates vw vecResults)
            textScores)) := rfl
  have hmem : ∀ p ∈ hybridSearch vw tw limit minScore vecResults textScores,
      p ∈ mergeTextCandidates tw (mergeVecCandidates vw vecResults)
        textScores := by
    intro p hp
    rw [hout] at hp
    exact (sortScoresDesc_perm _).mem_iff.mp
      (List.Sublist.subset (collectTopScores_sublist minScore limit _) hp)
  have hformula : ∀ p ∈ hybridSearch vw tw limit minScore vecResults textScores,
      p.2 = hybridScoreFormula vw tw vecResults textScores p.1 :=
    fun p hp =>
      merged_entry_score vw tw vecResults textScores hvnd htnd p (hmem p hp)
  refine ⟨hformula, ?_, ?_, ?_, ?_⟩
  · rw [hout]
    exact List.Pairwise.sublist (collectTopScores_sublist minScore limit _)
      (sortScoresDesc_pairwise _)
  · intro p hp
    rw [hout] at hp
    exact collectTopScores_minScore minScore limit _ p hp
  · rw [hout]
    exact collectTopScores_length minScore limit _ hlim
  · intro p hp
    rw [hformula p hp, hybridScoreFormula]
    have hvpart : vw * (poolScore vecResults p.1).getD 0 ≤ vw * 1 := by
      apply mul_le_mul_of_nonneg_left _ hvw
      cases hvs : poolScore vecResults p.1 with
      | none => norm_num
      | some v =>
          obtain ⟨q, hq1, hq2⟩ :=
            exists_mem_of_poolScore_some vecResults p.1 v hvs
          obtain ⟨w, hw1, hw2⟩ := hvec q hq1
          rw [Option.getD_some, ← hq2, hw2]
          exact dotList_le_one queryVec w hq hw1
    have htpart : tw * (match poolScore textScores p.1 with
        | some bm25 => textScoreOf bm25
        | none => 0) ≤ tw * 1 := by
      apply mul_le_mul_of_nonneg_left _ htw
      cases hts : poolScore textScores p.1 with
      | none => norm_num
      | some bm => exact textScoreOf_le_one bm
    exact add_le_add hvpart htpart

/-- Witness for C6 at a one-candidate pool with unit query and stored
vectors. -/
theorem hybridSearch_spec_witness :
    (∀ p ∈ hybridSearch (7/10) (3/10) 1 0 [("a", 1)] [("a", 0)],
        p.2 = hybridScoreFormula (7/10) (3/10) [("a", 1)] [("a", 0)] p.1) ∧
    (hybridSearch (7/10) (3/10) 1 0 [("a", 1)] [("a", 0)]).Pairwise
        (fun a b => b.2 ≤ a.2) ∧
    (∀ p ∈ hybridSearch (7/10) (3/10) 1 0 [("a", 1)] [("a", 0)],
        (0 : ℚ) ≤ p.2) ∧
    (hybridSearch (7/10) (3/10) 1 0 [("a", 1)] [("a", 0)]).length ≤ 1 ∧
    (∀ p ∈ hybridSearch (7/10) (3/10) 1 0 [("a", 1)] [("a", 0)],
        p.2 ≤ 7/10 * 1 + 3/10 * 1) :=
  hybridSearch_spec (7/10) (3/10) 1 0 [("a", 1)] [("a", 0)] [1, 0]
    (by norm_num) (by norm_num) (by norm_num) (by simp) (by simp)
    (by norm_num [normSq])
    (fun p hp => by
      rcases List.mem_singleton.mp hp with rfl
      exact ⟨[1, 0], by norm_num [normSq], by norm_num [dotList]⟩)
